import Mathlib

/-!
Shallow embedding of the Pyobfuscate source-to-source obfuscator.

Conventions used throughout this development:
- Python strings are modeled as lists of character code points (`PyStr`).
- Python unbounded integers are modeled as `Int`; Python floor division `//`
  and modulo `%` coincide with `Int.ediv` / `Int.emod` whenever the divisor
  is positive, which is the case at every division site embedded here
  (division by zero, which raises `ZeroDivisionError` in Python, is modeled
  with `Option`).
- Python bitwise arithmetic on nonnegative integers is modeled with `Nat`
  bitwise operations (`&&&`, `|||`, `^^^`, `<<<`, `>>>`).
-/

/-- Python strings, modeled as lists of character code points. -/
abbrev PyStr := List Nat

/-! ## Decimal digit strings

Models the digit sequence of Python `str(n)` / `int(s)` for integers,
used by `XorStringNumberStrategy` and by f-string name generation. -/

/-- Decimal digit values of a natural number, most significant first.
This is the digit sequence of Python `str(n)` for a nonnegative integer. -/
def natDigits (n : Nat) : List Nat :=
  if n < 10 then [n] else natDigits (n / 10) ++ [n % 10]
termination_by n
decreasing_by exact Nat.div_lt_self (by omega) (by norm_num)

/-- Reads a most-significant-first digit list back as a natural number,
as Python `int()` does on a digit string. -/
def digitsToNat (ds : List Nat) : Nat :=
  ds.foldl (fun a d => 10 * a + d) 0

theorem natDigits_ne_nil (n : Nat) : natDigits n ≠ [] := by
  rw [natDigits]
  split
  · simp
  · simp

theorem natDigits_lt_ten (n : Nat) : ∀ d ∈ natDigits n, d < 10 := by
  induction n using Nat.strong_induction_on with
  | _ n ih =>
    rw [natDigits]
    split
    · intro d hd
      simp at hd
      omega
    · intro d hd
      rw [List.mem_append] at hd
      rcases hd with hd | hd
      · exact ih (n / 10) (Nat.div_lt_self (by omega) (by norm_num)) d hd
      · simp at hd
        omega

theorem natDigits_foldl (n : Nat) :
    ∀ acc : Nat, (natDigits n).foldl (fun a d => 10 * a + d) acc =
      acc * 10 ^ (natDigits n).length + n := by
  induction n using Nat.strong_induction_on with
  | _ n ih =>
    intro acc
    rw [natDigits]
    split
    · simp
      ring
    · rw [List.foldl_append, ih (n / 10) (Nat.div_lt_self (by omega) (by norm_num))]
      simp [pow_succ]
      ring_nf
      omega

theorem digitsToNat_natDigits (n : Nat) : digitsToNat (natDigits n) = n := by
  rw [digitsToNat, natDigits_foldl]
  simp

theorem natDigits_injective : Function.Injective natDigits := by
  intro a b hab
  have ha := digitsToNat_natDigits a
  have hb := digitsToNat_natDigits b
  rw [hab] at ha
  omega

/-- The code-point string of Python `str(v)` for an integer `v`:
an optional minus sign (code 45) followed by decimal digit codes. -/
def intStr (v : Int) : PyStr :=
  if v < 0 then 45 :: (natDigits (-v).toNat).map (fun d => 48 + d)
  else (natDigits v.toNat).map (fun d => 48 + d)

/-- Whether a code point is an ASCII decimal digit. -/
def isDigitCode (c : Nat) : Bool :=
  decide (48 ≤ c) && decide (c ≤ 57)

/-- Model of Python `int(s)` on the strings produced by this code base:
an optional minus sign followed by a nonempty run of digits parses to an
integer; anything else raises `ValueError`, modeled as `none`. -/
def parseIntStr (s : PyStr) : Option Int :=
  match s with
  | [] => none
  | c :: rest =>
    if c = 45 then
      if rest ≠ [] ∧ rest.all isDigitCode then
        some (-(digitsToNat (rest.map (fun x => x - 48)) : Int))
      else none
    else
      if (c :: rest).all isDigitCode then
        some ((digitsToNat ((c :: rest).map (fun x => x - 48)) : Int))
      else none

theorem map_digit_codes_roundtrip (n : Nat) :
    ((natDigits n).map (fun d => 48 + d)).map (fun x => x - 48) = natDigits n := by
  rw [List.map_map]
  have : ((fun x => x - 48) ∘ fun d => 48 + d) = fun d : Nat => d := by
    funext d
    simp
  rw [this]
  exact List.map_id _

theorem digit_codes_all_digit (n : Nat) :
    ((natDigits n).map (fun d => 48 + d)).all isDigitCode = true := by
  rw [List.all_eq_true]
  intro c hc
  rw [List.mem_map] at hc
  obtain ⟨d, hd, rfl⟩ := hc
  have := natDigits_lt_ten n d hd
  simp [isDigitCode]
  omega

theorem parseIntStr_intStr (v : Int) : parseIntStr (intStr v) = some v := by
  rw [intStr]
  split
  · next hv =>
    have hne : (natDigits (-v).toNat).map (fun d => 48 + d) ≠ [] := by
      simp [natDigits_ne_nil]
    rw [parseIntStr.eq_def]
    simp only [if_true, eq_self_iff_true]
    rw [if_pos ⟨hne, digit_codes_all_digit _⟩,
      map_digit_codes_roundtrip, digitsToNat_natDigits]
    congr 1
    omega
  · next hv =>
    obtain ⟨c, rest, hcr⟩ : ∃ c rest, (natDigits v.toNat).map (fun d => 48 + d) = c :: rest := by
      cases h : (natDigits v.toNat).map (fun d => 48 + d) with
      | nil => exact absurd h (by simp [natDigits_ne_nil])
      | cons c rest => exact ⟨c, rest, rfl⟩
    rw [parseIntStr.eq_def]
    simp only [hcr]
    have hc45 : c ≠ 45 := by
      have : c ∈ (natDigits v.toNat).map (fun d => 48 + d) := by
        rw [hcr]; simp
      rw [List.mem_map] at this
      obtain ⟨d, _, rfl⟩ := this
      omega
    rw [if_neg hc45, if_pos (by rw [← hcr]; exact digit_codes_all_digit _),
      ← hcr, map_digit_codes_roundtrip, digitsToNat_natDigits]
    congr 1
    omega

/-! ## Freshness pigeonhole

Among infinitely many pairwise-distinct candidate strings, some candidate
avoids any given finite set of taken names.  Used for the termination of
`Naming.get_name` and `Renamer._generate_name` candidate searches. -/

theorem exists_not_mem_of_injective {α : Type} [DecidableEq α]
    (f : Nat → α) (hf : Function.Injective f) (l : List α) : ∃ i, f i ∉ l := by
  by_contra h
  push_neg at h
  have hsub : (Finset.range (l.length + 1)).image f ⊆ l.toFinset := by
    intro x hx
    rw [Finset.mem_image] at hx
    obtain ⟨i, _, rfl⟩ := hx
    rw [List.mem_toFinset]
    exact h i
  have hcard := Finset.card_le_card hsub
  rw [Finset.card_image_of_injective _ hf, Finset.card_range] at hcard
  have := l.toFinset_card_le
  omega

/-! ## NameTracker/naming.py

`Naming` keeps a set of used names and a set of generated names;
`get_name(base)` scans candidates `f"{base}{i}"` for `i = 0, 1, 2, ...`
and returns the first candidate in neither set, adding it to both. -/

/-- Candidate string for `get_name`: Python `f"{base}{i}"`. -/
def nameCand (base : PyStr) (i : Nat) : PyStr :=
  base ++ (natDigits i).map (fun d => 48 + d)

theorem nameCand_injective (base : PyStr) : Function.Injective (nameCand base) := by
  intro a b hab
  apply natDigits_injective
  have h := List.append_cancel_left hab
  have ha := congrArg (List.map (fun x : Nat => x - 48)) h
  rwa [map_digit_codes_roundtrip, map_digit_codes_roundtrip] at ha

/-- State of a `Naming` instance: the `used_names` and `generated_names`
sets (Python sets modeled as lists). -/
structure NamingState where
  used : List PyStr
  generated : List PyStr

theorem getName_exists (st : NamingState) (base : PyStr) :
    ∃ i, nameCand base i ∉ st.used ∧ nameCand base i ∉ st.generated := by
  obtain ⟨i, hi⟩ := exists_not_mem_of_injective (nameCand base)
    (nameCand_injective base) (st.used ++ st.generated)
  refine ⟨i, fun h => hi ?_, fun h => hi ?_⟩
  · exact List.mem_append_left _ h
  · exact List.mem_append_right _ h

/-- Embeds `Naming.get_name`: the candidate loop returns `f"{base}{i}"`
for the least `i` with the candidate in neither set, and registers the
result in both sets before returning it. -/
def getName (st : NamingState) (base : PyStr) : PyStr × NamingState :=
  let c := nameCand base (Nat.find (getName_exists st base))
  (c, ⟨c :: st.used, c :: st.generated⟩)

/-- Names returned by a run of consecutive `get_name` calls (with
arbitrary bases), threading the `Naming` state through. -/
def runNames (st : NamingState) : List PyStr → List PyStr
  | [] => []
  | b :: bs => (getName st b).1 :: runNames (getName st b).2 bs

theorem runNames_nodup_aux :
    ∀ (bs : List PyStr) (st : NamingState),
      (runNames st bs).Nodup ∧ ∀ x ∈ runNames st bs, x ∉ st.generated := by
  intro bs
  induction bs with
  | nil => intro st; simp [runNames]
  | cons b bs ih =>
    intro st
    obtain ⟨hnd, hmem⟩ := ih (getName st b).2
    have hc_fresh : (getName st b).1 ∉ st.generated :=
      (Nat.find_spec (getName_exists st b)).2
    have hc_gen : (getName st b).1 ∈ (getName st b).2.generated := by
      simp [getName]
    constructor
    · rw [runNames, List.nodup_cons]
      exact ⟨fun hc => hmem _ hc hc_gen, hnd⟩
    · intro x hx
      rw [runNames, List.mem_cons] at hx
      rcases hx with rfl | hx
      · exact hc_fresh
      · intro hxg
        refine hmem x hx ?_
        simp [getName]
        right
        exact hxg

/-- C8: `get_name(base)` returns `base + i` for the smallest nonnegative
`i` whose candidate is in neither the used set nor the generated set at
call time, registers the result in both sets before returning, and no two
`get_name` calls within one run (with any bases) return the same string. -/
theorem naming_getName_fresh_unique (st : NamingState) (base : PyStr) :
    (∃ i, (getName st base).1 = nameCand base i ∧
      nameCand base i ∉ st.used ∧ nameCand base i ∉ st.generated ∧
      ∀ j < i, nameCand base j ∈ st.used ∨ nameCand base j ∈ st.generated) ∧
    (getName st base).1 ∈ (getName st base).2.used ∧
    (getName st base).1 ∈ (getName st base).2.generated ∧
    ∀ bases : List PyStr, (runNames st bases).Nodup := by
  refine ⟨⟨Nat.find (getName_exists st base), rfl,
    (Nat.find_spec (getName_exists st base)).1,
    (Nat.find_spec (getName_exists st base)).2, ?_⟩, ?_, ?_, ?_⟩
  · intro j hj
    have := Nat.find_min (getName_exists st base) hj
    tauto
  · simp [getName]
  · simp [getName]
  · intro bases
    exact (runNames_nodup_aux bases st).1

/-! ## Renaming/renamer.py

Renamer collects bound names (Phase 1), maps each to a fresh random
identifier (Phase 2), and rewrites every occurrence (Phase 3). -/

/-- Whether a code point may start an identifier drawn by
`_generate_name`: an ASCII letter or underscore. -/
def isIdentHeadCode (c : Nat) : Bool :=
  (decide (65 ≤ c) && decide (c ≤ 90)) || (decide (97 ≤ c) && decide (c ≤ 122)) || c == 95

/-- Whether a code point may continue such an identifier: a letter,
digit or underscore. -/
def isIdentTailCode (c : Nat) : Bool :=
  isIdentHeadCode c || (decide (48 ≤ c) && decide (c ≤ 57))

/-- Model of `str.isidentifier` on the ASCII alphabet `_generate_name`
samples from. -/
def isIdentLike : PyStr → Bool
  | [] => false
  | c :: rest => isIdentHeadCode c && rest.all isIdentTailCode

/-- Embeds `Renamer._generate_name` for one call: scan the call's stream
of random candidate strings and return the first that is an identifier and
collides neither with the namespace nor with an already-mapped value.  The
hypothesis supplies termination of the `while True` retry loop. -/
def renGenName (s : Nat → PyStr) (ns vals : List PyStr)
    (H : ∃ i, isIdentLike (s i) ∧ s i ∉ ns ∧ s i ∉ vals) : PyStr :=
  s (Nat.find H)

/-- Randomness assumption for `_generate_name`: every call's candidate
stream eventually produces a valid identifier avoiding any given finite
collision sets (Python's `while True` loop does not terminate otherwise). -/
def RenStreamOk (streams : Nat → Nat → PyStr) : Prop :=
  ∀ (k : Nat) (ns vals : List PyStr),
    ∃ i, isIdentLike (streams k i) ∧ streams k i ∉ ns ∧ streams k i ∉ vals

/-- Embeds the mapping-building loop of `Renamer.apply`: for each collected
name in order, generate a fresh name (which `_generate_name` adds to the
namespace) and record the pair.  Returns the mapping and final namespace. -/
def buildMapping (streams : Nat → Nat → PyStr) (H : RenStreamOk streams) :
    Nat → List PyStr → List PyStr → List (PyStr × PyStr) →
      List (PyStr × PyStr) × List PyStr
  | _, [], ns, m => (m, ns)
  | k, old :: rest, ns, m =>
    let g := renGenName (streams k) ns (m.map Prod.snd) (H k ns (m.map Prod.snd))
    buildMapping streams H (k + 1) rest (g :: ns) (m ++ [(old, g)])

theorem buildMapping_spec (streams : Nat → Nat → PyStr) (H : RenStreamOk streams) :
    ∀ (todo : List PyStr) (k : Nat) (ns : List PyStr) (m : List (PyStr × PyStr)),
      (∀ x ∈ m.map Prod.snd, x ∈ ns) → (m.map Prod.snd).Nodup →
      ((buildMapping streams H k todo ns m).1.map Prod.fst = m.map Prod.fst ++ todo ∧
        ((buildMapping streams H k todo ns m).1.map Prod.snd).Nodup ∧
        ∀ x ∈ (buildMapping streams H k todo ns m).1.map Prod.snd,
          x ∈ m.map Prod.snd ∨ x ∉ ns) := by
  intro todo
  induction todo with
  | nil =>
    intro k ns m _ hnd
    refine ⟨by simp [buildMapping], by simpa [buildMapping] using hnd, ?_⟩
    intro x hx
    rw [buildMapping] at hx
    exact Or.inl hx
  | cons old rest ih =>
    intro k ns m hval hnd
    have hfind := Nat.find_spec (H k ns (m.map Prod.snd))
    set g := renGenName (streams k) ns (m.map Prod.snd) (H k ns (m.map Prod.snd)) with hg
    have hg_ns : g ∉ ns := hfind.2.1
    have hg_vals : g ∉ m.map Prod.snd := hfind.2.2
    have hval2 : ∀ x ∈ (m ++ [(old, g)]).map Prod.snd, x ∈ g :: ns := by
      intro x hx
      rw [List.map_append] at hx
      rcases List.mem_append.mp hx with hx | hx
      · exact List.mem_cons_of_mem _ (hval x hx)
      · simp at hx
        simp [hx]
    have hnd2 : ((m ++ [(old, g)]).map Prod.snd).Nodup := by
      rw [List.map_append]
      simp only [List.map_cons, List.map_nil]
      rw [List.nodup_append]
      refine ⟨hnd, by simp, ?_⟩
      intro x hx
      simp only [List.mem_singleton]
      intro hxg
      subst hxg
      exact hg_vals hx
    obtain ⟨h1, h2, h3⟩ := ih (k + 1) (g :: ns) (m ++ [(old, g)]) hval2 hnd2
    rw [buildMapping]
    refine ⟨by rw [h1]; simp, h2, ?_⟩
    intro x hx
    rcases h3 x hx with hx2 | hx2
    · rw [List.map_append] at hx2
      rcases List.mem_append.mp hx2 with hx3 | hx3
      · exact Or.inl hx3
      · simp at hx3
        subst hx3
        exact Or.inr hg_ns
    · exact Or.inr fun hxn => hx2 (List.mem_cons_of_mem _ hxn)

/-- Abstract syntax of the fragment `Renamer` traverses: name references
with a store/load flag, function definitions (name, parameters, body),
class definitions, lambdas, and any other node kind with children. -/
inductive RNode where
  | rname : PyStr → Bool → RNode
  | rfunc : PyStr → List PyStr → List RNode → RNode
  | rclass : PyStr → List RNode → RNode
  | rlam : List PyStr → RNode → RNode
  | rseq : List RNode → RNode

/-- Embeds `self.mapping.get(name, name)` / the `visit_Name` lookup of
`_Rewriter`. -/
def applyMap (m : List (PyStr × PyStr)) (s : PyStr) : PyStr :=
  match m.find? (fun p => p.1 == s) with
  | some p => p.2
  | none => s

mutual

/-- Phase 1 of `Renamer`: collect function names, parameters, class
names, lambda parameters, and store-context names, scope-obliviously. -/
def collectNode : RNode → List PyStr
  | .rname s isStore => if isStore then [s] else []
  | .rfunc n ps body => n :: (ps ++ collectList body)
  | .rclass n body => n :: collectList body
  | .rlam ps b => ps ++ collectNode b
  | .rseq cs => collectList cs

def collectList : List RNode → List PyStr
  | [] => []
  | x :: xs => collectNode x ++ collectList xs

end

mutual

/-- Phase 3 of `Renamer` (`_Rewriter`): substitute the mapping at every
definition site and name reference. -/
def rewriteNode (m : List (PyStr × PyStr)) : RNode → RNode
  | .rname s c => .rname (applyMap m s) c
  | .rfunc n ps body => .rfunc (applyMap m n) (ps.map (applyMap m)) (rewriteList m body)
  | .rclass n body => .rclass (applyMap m n) (rewriteList m body)
  | .rlam ps b => .rlam (ps.map (applyMap m)) (rewriteNode m b)
  | .rseq cs => .rseq (rewriteList m cs)

def rewriteList (m : List (PyStr × PyStr)) : List RNode → List RNode
  | [] => []
  | x :: xs => rewriteNode m x :: rewriteList m xs

end

mutual

/-- All syntactic name occurrences in a node (definition sites and
references alike), in traversal order. -/
def nodeNames : RNode → List PyStr
  | .rname s _ => [s]
  | .rfunc n ps body => n :: (ps ++ listNames body)
  | .rclass n body => n :: listNames body
  | .rlam ps b => ps ++ nodeNames b
  | .rseq cs => listNames cs

def listNames : List RNode → List PyStr
  | [] => []
  | x :: xs => nodeNames x ++ listNames xs

end

mutual

theorem nodeNames_rewrite (m : List (PyStr × PyStr)) (t : RNode) :
    nodeNames (rewriteNode m t) = (nodeNames t).map (applyMap m) := by
  cases t with
  | rname s c => simp [rewriteNode, nodeNames]
  | rfunc n ps body =>
    simp [rewriteNode, nodeNames, listNames_rewrite m body]
  | rclass n body =>
    simp [rewriteNode, nodeNames, listNames_rewrite m body]
  | rlam ps b =>
    simp [rewriteNode, nodeNames, nodeNames_rewrite m b]
  | rseq cs =>
    simp [rewriteNode, nodeNames, listNames_rewrite m cs]

theorem listNames_rewrite (m : List (PyStr × PyStr)) (l : List RNode) :
    listNames (rewriteList m l) = (listNames l).map (applyMap m) := by
  cases l with
  | nil => simp [rewriteList, listNames]
  | cons x xs =>
    simp [rewriteList, listNames, nodeNames_rewrite m x, listNames_rewrite m xs]

end

/-- Embeds `Renamer.apply`: Phase 1 collects the bound-name set (`set`
modeled as `dedup`), the mapping loop assigns each collected name a fresh
generated name, and Phase 3 rewrites the tree through the mapping. -/
def renamerApply (streams : Nat → Nat → PyStr) (H : RenStreamOk streams)
    (ns0 : List PyStr) (tree : RNode) : List (PyStr × PyStr) × RNode :=
  let toRename := (collectNode tree).dedup
  let m := (buildMapping streams H 0 toRename ns0 []).1
  (m, rewriteNode m tree)

/-- C9: `Renamer.apply` builds a mapping that is total over the collected
name set and one-to-one, generated replacements collide neither with the
caller-supplied external namespace nor with one another, and every
syntactic occurrence of a name in the output tree is produced by the one
shared mapping lookup. -/
theorem renamer_apply_total_injective_consistent
    (streams : Nat → Nat → PyStr) (H : RenStreamOk streams)
    (ns0 : List PyStr) (tree : RNode) :
    ((renamerApply streams H ns0 tree).1.map Prod.fst = (collectNode tree).dedup ∧
      ((renamerApply streams H ns0 tree).1.map Prod.snd).Nodup) ∧
    (∀ x ∈ (renamerApply streams H ns0 tree).1.map Prod.snd, x ∉ ns0) ∧
    nodeNames (renamerApply streams H ns0 tree).2 =
      (nodeNames tree).map (applyMap (renamerApply streams H ns0 tree).1) := by
  obtain ⟨h1, h2, h3⟩ := buildMapping_spec streams H ((collectNode tree).dedup) 0 ns0 []
    (by simp) (by simp)
  refine ⟨⟨by simpa using h1, h2⟩, ?_, ?_⟩
  · intro x hx
    rcases h3 x hx with hx2 | hx2
    · simp at hx2
    · exact hx2
  · exact nodeNames_rewrite _ tree

/-- A concrete candidate stream for the renamer witness: call `k`,
attempt `i` yields the identifier `g<k>_<i>` (letter `g`, then the
decimal digits of a single injective pairing of `k` and `i`). -/
def gStream (k i : Nat) : PyStr :=
  103 :: ((natDigits k).map (fun d => 48 + d) ++ (95 :: (natDigits i).map (fun d => 48 + d)))

theorem gStream_ok : RenStreamOk gStream := by
  intro k ns vals
  have hinj : Function.Injective (gStream k) := by
    intro a b hab
    apply natDigits_injective
    have h1 := List.tail_eq_of_cons_eq hab
    have h2 := List.append_cancel_left h1
    have h3 := List.tail_eq_of_cons_eq h2
    have ha := congrArg (List.map (fun x : Nat => x - 48)) h3
    rwa [map_digit_codes_roundtrip, map_digit_codes_roundtrip] at ha
  obtain ⟨i, hi⟩ := exists_not_mem_of_injective (gStream k) hinj (ns ++ vals)
  refine ⟨i, ?_, fun h => hi (List.mem_append_left _ h),
    fun h => hi (List.mem_append_right _ h)⟩
  rw [gStream, isIdentLike]
  rw [Bool.and_eq_true]
  refine ⟨by norm_num [isIdentHeadCode], ?_⟩
  rw [List.all_eq_true]
  intro c hc
  rw [List.mem_append] at hc
  rcases hc with hc | hc
  · rw [List.mem_map] at hc
    obtain ⟨d, hd, rfl⟩ := hc
    have := natDigits_lt_ten k d hd
    simp [isIdentTailCode, isIdentHeadCode]
    omega
  · rcases List.mem_cons.mp hc with rfl | hc
    · norm_num [isIdentTailCode, isIdentHeadCode]
    · rw [List.mem_map] at hc
      obtain ⟨d, hd, rfl⟩ := hc
      have := natDigits_lt_ten i d hd
      simp [isIdentTailCode, isIdentHeadCode]
      omega

/-- Witness for C9 at a concrete stream, namespace and tree. -/
theorem renamer_apply_total_injective_consistent_witness :
    ((renamerApply gStream gStream_ok [[120]]
        (RNode.rfunc [102] [[120]] [RNode.rname [120] false])).1.map Prod.fst =
      (collectNode (RNode.rfunc [102] [[120]] [RNode.rname [120] false])).dedup ∧
      ((renamerApply gStream gStream_ok [[120]]
        (RNode.rfunc [102] [[120]] [RNode.rname [120] false])).1.map Prod.snd).Nodup) ∧
    (∀ x ∈ (renamerApply gStream gStream_ok [[120]]
        (RNode.rfunc [102] [[120]] [RNode.rname [120] false])).1.map Prod.snd, x ∉ [[120]]) ∧
    nodeNames (renamerApply gStream gStream_ok [[120]]
        (RNode.rfunc [102] [[120]] [RNode.rname [120] false])).2 =
      (nodeNames (RNode.rfunc [102] [[120]] [RNode.rname [120] false])).map
        (applyMap (renamerApply gStream gStream_ok [[120]]
          (RNode.rfunc [102] [[120]] [RNode.rname [120] false])).1) :=
  renamer_apply_total_injective_consistent gStream gStream_ok [[120]]
    (RNode.rfunc [102] [[120]] [RNode.rname [120] false])

/-! ## LoopObfuscation/obfuscation_strategies.py: CollatzStrategy

Python `//` and `%` on `Int` agree with Lean's `/` and `%` (Euclidean)
because every divisor below (`2`, `a ∈ {3,5}`, `abs(step)`) is positive. -/

/-- Forward Collatz map, as emitted by `get_advance` and inside the
injected resolver: halve when even, else multiply by `a` and add `b`. -/
def collatzStep (a b : Int) (x : Int) : Int :=
  if x % 2 = 0 then x / 2 else a * x + b

/-- State values the reverse branch of `_collatz_forward` refuses. -/
def collatzExcluded : List Int := [2, 4, 8, 16, 32, 40, 1312]

/-- One step of `CollatzStrategy._collatz_forward`: take the reverse
branch `(state - b) / a` when it divides exactly, the quotient is odd,
the low-probability random gate fires, and the state is not excluded;
otherwise double the state. -/
def collatzBackStep (a b : Int) (gate : Bool) (s : Int) : Int :=
  if (s - b) % a = 0 ∧ ((s - b) / a) % 2 = 1 ∧ gate = true ∧ s ∉ collatzExcluded then
    (s - b) / a
  else 2 * s

/-- Embeds `CollatzStrategy._collatz_forward(a, b, seed, n)`: apply `n`
backward steps from the sampled seed (one random gate drawn per step,
`n = gates.length`), producing the loop's target value. -/
def collatzForward (a b : Int) (gates : List Bool) (seed : Int) : Int :=
  gates.foldl (fun s g => collatzBackStep a b g s) seed

/-- Embeds the iteration count computed in `CollatzStrategy.__init__`:
`max(0, (stop - start + (step-1 if step>0 else -(step+1))) // abs(step))`.
Python floor division by `abs(step)` raises `ZeroDivisionError` when
`step = 0`, modeled as `none`. -/
def collatzIterCount (start stop step : Int) : Option Int :=
  if step = 0 then none
  else some (max 0 ((stop - start + (if step > 0 then step - 1 else -(step + 1))) / |step|))

/-- Body of the injected `resolve_collatz` helper: count forward-map
applications of its `num` parameter until it equals its `target`
parameter (fuel models the unbounded `while`; `none` is nontermination
within the allotted fuel). -/
def resolveCollatz (a b : Int) : Nat → Int → Int → Option Nat
  | 0, num, target => if num = target then some 0 else none
  | fuel + 1, num, target =>
    if num = target then some 0
    else (resolveCollatz a b fuel (collatzStep a b num) target).map (fun k => k + 1)

/-- The resolver call emitted by `get_loop_index_setup` passes positional
arguments `(a, b, num, target)`, but the injected helper declares its
parameters in the order `(a, b, target, num)`; the third actual (the
current hidden state) therefore binds to `target` and the fourth (the
loop's target constant) binds to `num`. -/
def resolveCallSite (a b : Int) (fuel : Nat) (num target : Int) : Option Nat :=
  resolveCollatz a b fuel target num

/-- Number of body executions of the lowered Collatz while loop
`num = target; while num != seed: <body>; <advance>`, with fuel bounding
the unbounded loop. -/
def collatzLoopCount (a b seed : Int) : Nat → Int → Option Nat
  | 0, num => if num = seed then some 0 else none
  | fuel + 1, num =>
    if num = seed then some 0
    else (collatzLoopCount a b seed fuel (collatzStep a b num)).map (fun k => k + 1)

theorem collatzStep_backStep (a b : Int) (g : Bool) (s : Int) :
    collatzStep a b (collatzBackStep a b g s) = s := by
  rw [collatzBackStep]
  split
  · next h =>
    obtain ⟨h1, h2, -, -⟩ := h
    rw [collatzStep, if_neg (by rw [h2]; norm_num)]
    have hdvd : a ∣ s - b := Int.dvd_of_emod_eq_zero h1
    rw [Int.mul_ediv_cancel' hdvd]
    ring
  · rw [collatzStep, if_pos (Int.mul_emod_right 2 s)]
    exact Int.mul_ediv_cancel_left s (by norm_num)

/-- C6: for every sampled parameter set `(a, b, seed)` and gate sequence
of length `N`, applying the forward Collatz map exactly `N` times to the
computed target reaches exactly the seed. -/
theorem collatz_forward_reaches_seed (a b seed : Int) (gates : List Bool)
    (ha : a = 3 ∨ a = 5)
    (hb : b = -1 ∨ b = 1 ∨ b = 3 ∨ b = 5 ∨ b = 7 ∨ b = 11)
    (hseed : 19 ≤ seed ∧ seed ≤ 97) :
    (collatzStep a b)^[gates.length] (collatzForward a b gates seed) = seed := by
  clear ha hb hseed
  induction gates generalizing seed with
  | nil => rfl
  | cons g gs ih =>
    have hfold : collatzForward a b (g :: gs) seed =
        collatzForward a b gs (collatzBackStep a b g seed) := rfl
    rw [hfold, List.length_cons, Function.iterate_succ_apply',
      ih (collatzBackStep a b g seed), collatzStep_backStep]

/-- Witness for C6 at `a = 3`, `b = 5`, `seed = 19`, two backward steps. -/
theorem collatz_forward_reaches_seed_witness :
    (collatzStep 3 5)^[([true, false] : List Bool).length]
      (collatzForward 3 5 [true, false] 19) = 19 :=
  collatz_forward_reaches_seed 3 5 19 [true, false] (Or.inl rfl)
    (Or.inr (Or.inr (Or.inr (Or.inl rfl)))) (by norm_num)

/-- C7 (failing input): with sampled parameters `a = 3`, `b = 7`,
`seed = 28`, three backward steps whose random gate fires on the first
(producing the cycle 28 → 7 → 14 → 28, so `target = 28`), the hidden
state after `k = 3` forward applications from the target is `28`, yet
the injected resolver invoked with `(a, b, num, target)` returns `0`
rather than the correct 0-based index `3`. -/
theorem collatz_resolver_wrong_index :
    collatzForward 3 7 [true, false, false] 28 = 28 ∧
    (collatzStep 3 7)^[3] (collatzForward 3 7 [true, false, false] 28) = 28 ∧
    resolveCallSite 3 7 10
      ((collatzStep 3 7)^[3] (collatzForward 3 7 [true, false, false] 28))
      (collatzForward 3 7 [true, false, false] 28) = some 0 ∧
    (some 0 : Option Nat) ≠ some 3 := by
  refine ⟨by decide, by decide, by decide, by decide⟩

/-- C1 (failing input): lowering `for i in range(3)` (a literal
`(0, 3, 1)` loop, expected count `3`) with the Collatz strategy under
the same degenerate random draw as above produces `target = 28 = seed`,
so the emitted `while num != seed` loop executes its body zero times
instead of three. -/
theorem collatz_lowered_loop_count_mismatch :
    collatzIterCount 0 3 1 = some 3 ∧
    collatzForward 3 7 [true, false, false] 28 = 28 ∧
    collatzLoopCount 3 7 28 10 (collatzForward 3 7 [true, false, false] 28) = some 0 ∧
    (some 0 : Option Nat) ≠ some 3 := by
  refine ⟨by decide, by decide, by decide, by decide⟩

/-! ## Abstract syntax for the expression fragment the obfuscator parses
and emits (ast.Constant / Name / UnaryOp(USub) / BinOp / Call). -/

/-- Python constant values occurring in `ast.Constant` nodes. -/
inductive PyVal where
  | vInt : Int → PyVal
  | vBool : Bool → PyVal
  | vStr : PyStr → PyVal
  | vNone : PyVal
deriving DecidableEq

/-- Expression contexts of `ast.Name`. -/
inductive PyCtx where
  | load
  | store
deriving DecidableEq

/-- Binary operators used by the embedded fragment (the operator pool of
`ArithmeticStrategy`). -/
inductive PyBinOp where
  | add
  | sub
  | mult
  | floordiv
deriving DecidableEq

/-- Expressions of the embedded fragment. -/
inductive PyExpr where
  | const : PyVal → PyExpr
  | name : String → PyCtx → PyExpr
  | unaryMinus : PyExpr → PyExpr
  | binop : PyExpr → PyBinOp → PyExpr → PyExpr
  | call : PyExpr → List PyExpr → PyExpr

/-- Integer value of a constant under Python's `isinstance(v, int)` view:
`bool` is a subclass of `int`, so `True`/`False` count as `1`/`0`. -/
def pyConstInt : PyVal → Option Int
  | .vInt n => some n
  | .vBool b => some (if b then 1 else 0)
  | _ => none

/-- Embeds `is_int_literal` of `parse_constant_range_args`: a constant
integer (booleans included) or a unary minus applied to one. -/
def isIntLiteral : PyExpr → Bool
  | .const v => (pyConstInt v).isSome
  | .unaryMinus (.const v) => (pyConstInt v).isSome
  | _ => false

/-- Embeds `eval_int` of `parse_constant_range_args`. -/
def evalIntLiteral : PyExpr → Option Int
  | .const v => pyConstInt v
  | .unaryMinus (.const v) => (pyConstInt v).map (fun n => -n)
  | _ => none

/-- Embeds `parse_constant_range_args`: accepts `range` calls with one to
three literal integer arguments (step `0` included — there is no zero-step
check here) and returns the `(start, stop, step)` triple, defaulting
start to `0` and step to `1`. -/
def parseConstantRangeArgs : PyExpr → Option (Int × Int × Int)
  | .call (.name f _) args =>
    if f = "range" ∧ 1 ≤ args.length ∧ args.length ≤ 3 ∧ args.all isIntLiteral then
      match args.filterMap evalIntLiteral with
      | [x] => some (0, x, 1)
      | [x, y] => some (x, y, 1)
      | [x, y, z] => some (x, y, z)
      | _ => none
    else none
  | _ => none

/-- C5 (failing input): a literal `range(1, 5, 0)` loop header is parsed
successfully by `parse_constant_range_args` (so `visit_For` does not take
its pass-through branch), and `CollatzStrategy.__init__` then divides by
`abs(step) = 0`, raising `ZeroDivisionError` instead of skipping the
loop. -/
theorem zero_step_range_not_bypassed :
    parseConstantRangeArgs (PyExpr.call (PyExpr.name "range" PyCtx.load)
      [PyExpr.const (PyVal.vInt 1), PyExpr.const (PyVal.vInt 5),
        PyExpr.const (PyVal.vInt 0)]) = some (1, 5, 0) ∧
    collatzIterCount 1 5 0 = none := by
  refine ⟨by decide, by decide⟩

/-! ## Encrpytion/number_obscure_strategies.py: Feistel machinery

Both Feistel strategies share the swap-and-combine round
`L, R = R, (L ^ F(R)) & 0xFFFF` and a decoder round that recomputes `F`
on the known left half: `L, R = R ^ F(L), L`.  The round function is a
parameter; each scheme instantiates its own. -/

/-- One encoding round: `L, R = R, (L ^ F(R)) & 0xFFFF`. -/
def feistelEncRound (F : Nat → Nat) (p : Nat × Nat) : Nat × Nat :=
  (p.2, (p.1 ^^^ F p.2) &&& 0xFFFF)

/-- One decoding round of the synthesized decoders:
`prevL = R ^ F(L); prevR = L; L, R = prevL, prevR`. -/
def feistelDecRound (F : Nat → Nat) (p : Nat × Nat) : Nat × Nat :=
  (p.2 ^^^ F p.1, p.1)

/-- The `for _ in range(rounds)` encoding loop. -/
def feistelEncRounds (F : Nat → Nat) : Nat → Nat × Nat → Nat × Nat
  | 0, p => p
  | n + 1, p => feistelEncRounds F n (feistelEncRound F p)

/-- The `for _ in range(rounds)` decoding loop. -/
def feistelDecRounds (F : Nat → Nat) : Nat → Nat × Nat → Nat × Nat
  | 0, p => p
  | n + 1, p => feistelDecRounds F n (feistelDecRound F p)

theorem and_mask16_eq_mod (x : Nat) : x &&& 65535 = x % 65536 := by
  have := Nat.and_pow_two_sub_one_eq_mod x 16
  norm_num at this
  exact this

theorem and_mask16_lt (x : Nat) : x &&& 65535 < 65536 := by
  rw [and_mask16_eq_mod]
  exact Nat.mod_lt _ (by norm_num)

theorem and_mask16_of_lt {x : Nat} (h : x < 65536) : x &&& 65535 = x := by
  rw [and_mask16_eq_mod]
  exact Nat.mod_eq_of_lt h

theorem and_mask32_eq_mod (x : Nat) : x &&& 4294967295 = x % 4294967296 := by
  have := Nat.and_pow_two_sub_one_eq_mod x 32
  norm_num at this
  exact this

theorem and_mask32_of_lt {x : Nat} (h : x < 4294967296) : x &&& 4294967295 = x := by
  rw [and_mask32_eq_mod]
  exact Nat.mod_eq_of_lt h

theorem xor_lt_65536 {x y : Nat} (hx : x < 65536) (hy : y < 65536) : x ^^^ y < 65536 := by
  have : x ^^^ y < 2 ^ 16 :=
    Nat.xor_lt_two_pow (by norm_num at hx ⊢; exact hx) (by norm_num at hy ⊢; exact hy)
  norm_num at this
  exact this

theorem feistelDecRound_encRound (F : Nat → Nat) (hF : ∀ x, F x < 65536)
    (p : Nat × Nat) (h1 : p.1 < 65536) : feistelDecRound F (feistelEncRound F p) = p := by
  obtain ⟨L, R⟩ := p
  simp only [feistelEncRound, feistelDecRound]
  rw [and_mask16_of_lt (xor_lt_65536 h1 (hF R)), Nat.xor_cancel_right]

theorem feistelEncRounds_valid (F : Nat → Nat) :
    ∀ (n : Nat) (p : Nat × Nat), p.1 < 65536 → p.2 < 65536 →
      (feistelEncRounds F n p).1 < 65536 ∧ (feistelEncRounds F n p).2 < 65536 := by
  intro n
  induction n with
  | zero => intro p h1 h2; exact ⟨h1, h2⟩
  | succ n ih =>
    intro p h1 h2
    exact ih (feistelEncRound F p) h2 (and_mask16_lt _)

theorem feistelEncRounds_out (F : Nat → Nat) :
    ∀ (n : Nat) (p : Nat × Nat),
      feistelEncRounds F (n + 1) p = feistelEncRound F (feistelEncRounds F n p) := by
  intro n
  induction n with
  | zero => intro p; rfl
  | succ n ih =>
    intro p
    rw [feistelEncRounds, ih (feistelEncRound F p), ← feistelEncRounds]

theorem feistelDecRounds_encRounds (F : Nat → Nat) (hF : ∀ x, F x < 65536) :
    ∀ (n : Nat) (p : Nat × Nat), p.1 < 65536 → p.2 < 65536 →
      feistelDecRounds F n (feistelEncRounds F n p) = p := by
  intro n
  induction n with
  | zero => intro p _ _; rfl
  | succ n ih =>
    intro p h1 h2
    rw [feistelEncRounds_out, feistelDecRounds,
      feistelDecRound_encRound F hF _ (feistelEncRounds_valid F n p h1 h2).1,
      ih p h1 h2]

/-! ### Packing 16-bit halves into 32 bits (SimpleFeistelNumberStrategy) -/

theorem pack_eq_add {L R : Nat} (hR : R < 65536) : L <<< 16 ||| R = 65536 * L + R := by
  rw [Nat.shiftLeft_eq, Nat.mul_comm L (2 ^ 16)]
  have := Nat.mul_add_lt_is_or (a := L) (show R < 2 ^ 16 by norm_num; exact hR)
  norm_num at this ⊢
  omega

theorem pack_shiftRight {L R : Nat} (hR : R < 65536) : (L <<< 16 ||| R) >>> 16 = L := by
  rw [pack_eq_add hR, Nat.shiftRight_eq_div_pow]
  norm_num
  rw [Nat.mul_add_div (by norm_num), Nat.div_eq_of_lt hR]
  omega

theorem pack_and_mask {L R : Nat} (hR : R < 65536) : (L <<< 16 ||| R) &&& 65535 = R := by
  rw [pack_eq_add hR, and_mask16_eq_mod, Nat.mul_add_mod, Nat.mod_eq_of_lt hR]

theorem pack_lt {L R : Nat} (hL : L < 65536) (hR : R < 65536) :
    L <<< 16 ||| R < 4294967296 := by
  rw [pack_eq_add hR]
  omega

theorem pack_unpack {v : Nat} (hv : v < 4294967296) :
    (v >>> 16) <<< 16 ||| (v &&& 65535) = v := by
  rw [pack_eq_add (and_mask16_lt v), and_mask16_eq_mod, Nat.shiftRight_eq_div_pow]
  norm_num
  omega

theorem unpack_left_lt {v : Nat} (hv : v < 4294967296) : v >>> 16 < 65536 := by
  rw [Nat.shiftRight_eq_div_pow]
  norm_num
  omega

/-- Round function of `SimpleFeistelNumberStrategy`:
`x = h ^ key16; F = ((x << 3) | (x >> (16 - 3))) & 0xFFFF`. -/
def simpleFeistelF (key h : Nat) : Nat :=
  (((h ^^^ key) <<< 3) ||| ((h ^^^ key) >>> 13)) &&& 65535

/-- The preset 16-bit key of `SimpleFeistelNumberStrategy`. -/
def simpleFeistelKey : Nat := 0b1011001011001011

/-- In-range arithmetic of `SimpleFeistelNumberStrategy.obfuscate`: split
`v` into high/low 16-bit halves, run four Feistel rounds, repack. -/
def simpleFeistelEncodeNat (v : Nat) : Nat :=
  (feistelEncRounds (simpleFeistelF simpleFeistelKey) 4 (v >>> 16, v &&& 65535)).1 <<< 16 |||
    (feistelEncRounds (simpleFeistelF simpleFeistelKey) 4 (v >>> 16, v &&& 65535)).2

/-- The decoder synthesized by `SimpleFeistelNumberStrategy.get_decoder`:
unpack, four inverse rounds with the same key, pack, mask to 32 bits. -/
def simpleFeistelDecodeNat (x : Nat) : Nat :=
  ((feistelDecRounds (simpleFeistelF simpleFeistelKey) 4 (x >>> 16, x &&& 65535)).1 <<< 16 |||
    (feistelDecRounds (simpleFeistelF simpleFeistelKey) 4 (x >>> 16, x &&& 65535)).2) &&&
    4294967295

theorem simpleFeistel_roundtrip {v : Nat} (hv : v < 4294967296) :
    simpleFeistelDecodeNat (simpleFeistelEncodeNat v) = v := by
  have hF : ∀ x, simpleFeistelF simpleFeistelKey x < 65536 := fun x => and_mask16_lt _
  have h1 : v >>> 16 < 65536 := unpack_left_lt hv
  have h2 : v &&& 65535 < 65536 := and_mask16_lt v
  have hval := feistelEncRounds_valid (simpleFeistelF simpleFeistelKey) 4
    (v >>> 16, v &&& 65535) h1 h2
  rw [simpleFeistelDecodeNat, simpleFeistelEncodeNat,
    pack_shiftRight hval.2, pack_and_mask hval.2, Prod.mk.eta,
    feistelDecRounds_encRounds (simpleFeistelF simpleFeistelKey) hF 4 _ h1 h2,
    pack_unpack hv, and_mask32_of_lt hv]

/-! ### Bit de-interleaving (FeistelNumberStrategy)

The randomized strategy splits a 32-bit value by even/odd bit position
into two 16-bit halves and re-interleaves after the rounds; the decoder
does the same on the payload. -/

/-- The `L |= ((value >> (2 * i)) & 1) << i` accumulation loop after `n`
iterations. -/
def evenBitsAux (v : Nat) : Nat → Nat
  | 0 => 0
  | n + 1 => evenBitsAux v n ||| (((v >>> (2 * n)) &&& 1) <<< n)

/-- Even-position bits of `v` packed into 16 bits (the `L` half of the
de-interleave loop of `obfuscate` and of the synthesized decoder). -/
def evenBits (v : Nat) : Nat := evenBitsAux v 16

/-- The `R |= ((value >> (2 * i + 1)) & 1) << i` accumulation loop. -/
def oddBitsAux (v : Nat) : Nat → Nat
  | 0 => 0
  | n + 1 => oddBitsAux v n ||| (((v >>> (2 * n + 1)) &&& 1) <<< n)

/-- Odd-position bits of `v` packed into 16 bits (the `R` half). -/
def oddBits (v : Nat) : Nat := oddBitsAux v 16

/-- The `encoded |= ((L >> i) & 1) << (2 * i); encoded |= ((R >> i) & 1)
<< (2 * i + 1)` re-interleave loop after `n` iterations. -/
def interleaveAux (L R : Nat) : Nat → Nat
  | 0 => 0
  | n + 1 => (interleaveAux L R n ||| (((L >>> n) &&& 1) <<< (2 * n))) |||
      (((R >>> n) &&& 1) <<< (2 * n + 1))

/-- Re-interleaving of two 16-bit halves into a 32-bit value. -/
def interleave (L R : Nat) : Nat := interleaveAux L R 16

theorem testBit_one_eq (i : Nat) : Nat.testBit 1 i = decide (i = 0) := by
  cases i with
  | zero => decide
  | succ n => simp [Nat.testBit_succ]

theorem testBit_isolated_bit (v m k j : Nat) :
    (((v >>> m) &&& 1) <<< k).testBit j = (decide (j = k) && v.testBit m) := by
  rw [Nat.testBit_shiftLeft, Nat.testBit_and, Nat.testBit_shiftRight, testBit_one_eq]
  rcases Nat.lt_trichotomy j k with h | h | h
  · simp [show ¬ k ≤ j by omega, show j ≠ k by omega]
  · subst h
    simp
  · simp [show k ≤ j by omega, show j ≠ k by omega, show ¬ j - k = 0 by omega]

theorem isolated_bit_lt (v m k : Nat) : ((v >>> m) &&& 1) <<< k < 2 ^ (k + 1) := by
  rw [Nat.shiftLeft_eq]
  have hb : (v >>> m) &&& 1 ≤ 1 := Nat.and_le_right
  have h1 : ((v >>> m) &&& 1) * 2 ^ k ≤ 1 * 2 ^ k := Nat.mul_le_mul_right _ hb
  have h2 : (2 : Nat) ^ (k + 1) = 2 * 2 ^ k := by rw [pow_succ]; ring
  have h3 : 0 < (2 : Nat) ^ k := Nat.pos_pow_of_pos _ (by norm_num)
  omega

theorem evenBitsAux_lt (v : Nat) : ∀ n, evenBitsAux v n < 2 ^ n := by
  intro n
  induction n with
  | zero => norm_num [evenBitsAux]
  | succ n ih =>
    rw [evenBitsAux]
    exact Nat.or_lt_two_pow
      (Nat.lt_of_lt_of_le ih (Nat.pow_le_pow_right (by norm_num) (by omega)))
      (isolated_bit_lt v (2 * n) n)

theorem oddBitsAux_lt (v : Nat) : ∀ n, oddBitsAux v n < 2 ^ n := by
  intro n
  induction n with
  | zero => norm_num [oddBitsAux]
  | succ n ih =>
    rw [oddBitsAux]
    exact Nat.or_lt_two_pow
      (Nat.lt_of_lt_of_le ih (Nat.pow_le_pow_right (by norm_num) (by omega)))
      (isolated_bit_lt v (2 * n + 1) n)

theorem interleaveAux_lt (L R : Nat) : ∀ n, interleaveAux L R n < 2 ^ (2 * n) := by
  intro n
  induction n with
  | zero => norm_num [interleaveAux]
  | succ n ih =>
    rw [interleaveAux]
    have hmul : 2 * (n + 1) = (2 * n + 1) + 1 := by omega
    rw [hmul]
    refine Nat.or_lt_two_pow (Nat.or_lt_two_pow ?_ ?_) (isolated_bit_lt R n (2 * n + 1))
    · exact Nat.lt_of_lt_of_le ih (Nat.pow_le_pow_right (by norm_num) (by omega))
    · exact Nat.lt_of_lt_of_le (isolated_bit_lt L n (2 * n))
        (Nat.pow_le_pow_right (by norm_num) (by omega))

theorem testBit_evenBitsAux (v : Nat) :
    ∀ n j, (evenBitsAux v n).testBit j = (decide (j < n) && v.testBit (2 * j)) := by
  intro n
  induction n with
  | zero => intro j; simp [evenBitsAux]
  | succ n ih =>
    intro j
    rw [evenBitsAux, Nat.testBit_or, ih, testBit_isolated_bit]
    rcases Nat.lt_trichotomy j n with h | h | h
    · simp [show j < n + 1 by omega, h, show j ≠ n by omega]
    · subst h
      simp
    · simp [show ¬ j < n by omega, show j ≠ n by omega, show ¬ j < n + 1 by omega]

theorem testBit_oddBitsAux (v : Nat) :
    ∀ n j, (oddBitsAux v n).testBit j = (decide (j < n) && v.testBit (2 * j + 1)) := by
  intro n
  induction n with
  | zero => intro j; simp [oddBitsAux]
  | succ n ih =>
    intro j
    rw [oddBitsAux, Nat.testBit_or, ih, testBit_isolated_bit]
    rcases Nat.lt_trichotomy j n with h | h | h
    · simp [show j < n + 1 by omega, h, show j ≠ n by omega]
    · subst h
      simp
    · simp [show ¬ j < n by omega, show j ≠ n by omega, show ¬ j < n + 1 by omega]

theorem testBit_interleaveAux (L R : Nat) :
    ∀ n j, (interleaveAux L R n).testBit j =
      (decide (j < 2 * n) &&
        (if j % 2 = 0 then L.testBit (j / 2) else R.testBit (j / 2))) := by
  intro n
  induction n with
  | zero => intro j; simp [interleaveAux]
  | succ n ih =>
    intro j
    rw [interleaveAux, Nat.testBit_or, Nat.testBit_or, ih,
      testBit_isolated_bit, testBit_isolated_bit]
    rcases Nat.lt_trichotomy j (2 * n) with h | h | h
    · simp [show j < 2 * n + 2 by omega, h, show j ≠ 2 * n by omega,
        show j ≠ 2 * n + 1 by omega, show j < 2 * (n + 1) by omega]
    · subst h
      simp [show 2 * n < 2 * (n + 1) by omega, Nat.mul_mod_right,
        Nat.mul_div_cancel_left n (show 0 < 2 by norm_num)]
    · rcases Nat.lt_trichotomy j (2 * n + 1) with h2 | h2 | h2
      · omega
      · subst h2
        have hm : (2 * n + 1) % 2 = 1 := by omega
        have hd : (2 * n + 1) / 2 = n := by omega
        simp [show ¬ (2 * n + 1) < 2 * n by omega, show 2 * n + 1 ≠ 2 * n by omega,
          show 2 * n + 1 < 2 * (n + 1) by omega, hm, hd]
      · simp [show ¬ j < 2 * n by omega, show j ≠ 2 * n by omega,
          show j ≠ 2 * n + 1 by omega, show ¬ j < 2 * (n + 1) by omega]

theorem interleave_even_odd {v : Nat} (hv : v < 4294967296) :
    interleave (evenBits v) (oddBits v) = v := by
  apply Nat.eq_of_testBit_eq
  intro j
  rw [interleave, testBit_interleaveAux]
  by_cases hj : j < 32
  · by_cases hpar : j % 2 = 0
    · simp only [hpar, if_pos rfl, evenBits, testBit_evenBitsAux]
      simp [show j < 2 * 16 by omega, show j / 2 < 16 by omega,
        show 2 * (j / 2) = j by omega]
    · rw [if_neg hpar]
      simp only [oddBits, testBit_oddBitsAux]
      simp [show j < 2 * 16 by omega, show j / 2 < 16 by omega,
        show 2 * (j / 2) + 1 = j by omega]
  · have hvj : v.testBit j = false := by
      apply Nat.testBit_lt_two_pow
      calc v < 2 ^ 32 := by norm_num; exact hv
        _ ≤ 2 ^ j := Nat.pow_le_pow_right (by norm_num) (by omega)
    rw [hvj]
    simp [show ¬ j < 2 * 16 by omega]

theorem evenBits_interleave {L R : Nat} (hL : L < 65536) :
    evenBits (interleave L R) = L := by
  apply Nat.eq_of_testBit_eq
  intro j
  rw [evenBits, testBit_evenBitsAux, interleave, testBit_interleaveAux]
  by_cases hj : j < 16
  · simp [hj, show 2 * j < 2 * 16 by omega, Nat.mul_mod_right,
      Nat.mul_div_cancel_left j (show 0 < 2 by norm_num)]
  · have hLj : L.testBit j = false := by
      apply Nat.testBit_lt_two_pow
      calc L < 2 ^ 16 := by norm_num; exact hL
        _ ≤ 2 ^ j := Nat.pow_le_pow_right (by norm_num) (by omega)
    rw [hLj]
    simp [hj]

theorem oddBits_interleave {L R : Nat} (hR : R < 65536) :
    oddBits (interleave L R) = R := by
  apply Nat.eq_of_testBit_eq
  intro j
  rw [oddBits, testBit_oddBitsAux, interleave, testBit_interleaveAux]
  by_cases hj : j < 16
  · have hm : (2 * j + 1) % 2 = 1 := by omega
    have hd : (2 * j + 1) / 2 = j := by omega
    simp [hj, show 2 * j + 1 < 2 * 16 by omega, hm, hd]
  · have hRj : R.testBit j = false := by
      apply Nat.testBit_lt_two_pow
      calc R < 2 ^ 16 := by norm_num; exact hR
        _ ≤ 2 ^ j := Nat.pow_le_pow_right (by norm_num) (by omega)
    rw [hRj]
    simp [hj]

/-- Round function of `FeistelNumberStrategy`: `y = (h * salt_mul) &
0xFFFF; z = y ^ salt_xor; F = ((z << 3) | (z >> (16 - 3))) & 0xFFFF`. -/
def randFeistelF (mul salt h : Nat) : Nat :=
  (((((h * mul) &&& 65535) ^^^ salt) <<< 3) |||
    ((((h * mul) &&& 65535) ^^^ salt) >>> 13)) &&& 65535

/-- In-range arithmetic of `FeistelNumberStrategy.obfuscate`:
de-interleave `v` by even/odd bit position, run the rounds, re-interleave
and mask to 32 bits. -/
def randFeistelEncodeNat (mul salt : Nat) (rounds : Nat) (v : Nat) : Nat :=
  interleave (feistelEncRounds (randFeistelF mul salt) rounds (evenBits v, oddBits v)).1
    (feistelEncRounds (randFeistelF mul salt) rounds (evenBits v, oddBits v)).2 &&&
    4294967295

/-- The decoder synthesized by `FeistelNumberStrategy.get_decoder`:
de-interleave the payload, reverse the rounds (recomputing the round
function on the known left half), re-interleave, mask to 32 bits. -/
def randFeistelDecodeNat (mul salt : Nat) (rounds : Nat) (x : Nat) : Nat :=
  interleave (feistelDecRounds (randFeistelF mul salt) rounds (evenBits x, oddBits x)).1
    (feistelDecRounds (randFeistelF mul salt) rounds (evenBits x, oddBits x)).2 &&&
    4294967295

theorem evenBits_lt (v : Nat) : evenBits v < 65536 := by
  have := evenBitsAux_lt v 16
  norm_num [evenBits] at this ⊢
  exact this

theorem oddBits_lt (v : Nat) : oddBits v < 65536 := by
  have := oddBitsAux_lt v 16
  norm_num [oddBits] at this ⊢
  exact this

theorem interleave_lt (L R : Nat) : interleave L R < 4294967296 := by
  have := interleaveAux_lt L R 16
  norm_num [interleave] at this ⊢
  exact this

theorem randFeistel_roundtrip (mul salt : Nat) (rounds : Nat) {v : Nat}
    (hv : v < 4294967296) :
    randFeistelDecodeNat mul salt rounds (randFeistelEncodeNat mul salt rounds v) = v := by
  have hF : ∀ x, randFeistelF mul salt x < 65536 := fun x => and_mask16_lt _
  have hval := feistelEncRounds_valid (randFeistelF mul salt) rounds
    (evenBits v, oddBits v) (evenBits_lt v) (oddBits_lt v)
  have he : randFeistelEncodeNat mul salt rounds v =
      interleave
        (feistelEncRounds (randFeistelF mul salt) rounds (evenBits v, oddBits v)).1
        (feistelEncRounds (randFeistelF mul salt) rounds (evenBits v, oddBits v)).2 := by
    rw [randFeistelEncodeNat, and_mask32_of_lt (interleave_lt _ _)]
  rw [randFeistelDecodeNat, he, evenBits_interleave hval.1, oddBits_interleave hval.2,
    Prod.mk.eta,
    feistelDecRounds_encRounds (randFeistelF mul salt) hF rounds _
      (evenBits_lt v) (oddBits_lt v)]
  show interleave (evenBits v) (oddBits v) &&& 4294967295 = v
  rw [interleave_even_odd hv, and_mask32_of_lt hv]

/-! ### XorStringNumberStrategy -/

/-- Embeds the payload construction of `XorStringNumberStrategy.obfuscate`
for one random key draw: XOR the text with the key pointwise, then append
the key. -/
def xorEncodeStr (key s : PyStr) : PyStr :=
  (List.zipWith (fun c k => c ^^^ k) s key) ++ key

/-- Embeds the decoder synthesized by `XorStringNumberStrategy`: split the
payload in half by length, XOR pointwise, parse the integer back
(`int()` raising `ValueError` is modeled as `none`). -/
def xorDecodeStr (encoded : PyStr) : Option Int :=
  parseIntStr (List.zipWith (fun c k => c ^^^ k)
    (encoded.take (encoded.length / 2)) (encoded.drop (encoded.length / 2)))

theorem zipWith_xor_cancel : ∀ (s key : PyStr),
    List.zipWith (fun c k => c ^^^ k) (List.zipWith (fun c k => c ^^^ k) s key) key = s.take key.length := by
  intro s
  induction s with
  | nil => intro key; simp
  | cons c cs ih =>
    intro key
    cases key with
    | nil => simp
    | cons k ks => simp [ih ks, Nat.xor_cancel_right]

theorem xorDecode_encode {key s : PyStr} (hkey : key.length = s.length) :
    xorDecodeStr (xorEncodeStr key s) = parseIntStr s := by
  have hzlen : (List.zipWith (fun c k => c ^^^ k) s key).length = s.length := by
    rw [List.length_zipWith, hkey, Nat.min_self]
  rw [xorDecodeStr, xorEncodeStr]
  rw [List.length_append, hzlen, hkey]
  have hhalf : (s.length + s.length) / 2 = s.length := by omega
  rw [hhalf, ← hzlen, List.take_left, List.drop_left, zipWith_xor_cancel, hkey,
    List.take_length]

/-! ### The obfuscate / visit_Constant level -/

/-- Python `str()` of a constant value as `XorStringNumberStrategy` sees
it: `str(True)` is `"True"`, not `"1"`. -/
def pyValStr : PyVal → PyStr
  | .vInt n => intStr n
  | .vBool true => [84, 114, 117, 101]
  | .vBool false => [70, 97, 108, 115, 101]
  | .vStr s => s
  | .vNone => [78, 111, 110, 101]

/-- Embeds `SimpleFeistelNumberStrategy.obfuscate`: values outside
`[0, 2^32)` are returned as plain literals (non-fatal pass-through);
in-range values are encoded and wrapped in a call to the shared
decoder. -/
def simpleFeistelObfuscate (decoderName : String) (v : Int) : PyExpr :=
  if 0 ≤ v ∧ v < 4294967296 then
    .call (.name decoderName .load) [.const (.vInt (simpleFeistelEncodeNat v.toNat))]
  else .const (.vInt v)

/-- Embeds `FeistelNumberStrategy.obfuscate` (same range gate, sampled
multiplier and salt fixed per scheme instance). -/
def randFeistelObfuscate (decoderName : String) (mul salt : Nat) (rounds : Nat)
    (v : Int) : PyExpr :=
  if 0 ≤ v ∧ v < 4294967296 then
    .call (.name decoderName .load)
      [.const (.vInt (randFeistelEncodeNat mul salt rounds v.toNat))]
  else .const (.vInt v)

/-- Embeds `XorStringNumberStrategy.obfuscate` for one random key draw:
there is no range gate; every accepted constant is stringified,
XOR-encoded and wrapped in a decoder call. -/
def xorObfuscate (decoderName : String) (key : PyStr) (v : PyVal) : PyExpr :=
  .call (.name decoderName .load) [.const (.vStr (xorEncodeStr key (pyValStr v)))]

/-- Embeds `NumberObscurerInjector.visit_Constant` with the simple
Feistel strategy: `isinstance(node.value, int)` accepts booleans (`bool`
is a subclass of `int`), so their arithmetic value `1` or `0` is
encoded; non-integer constants pass through. -/
def visitConstantSimpleFeistel (decoderName : String) (v : PyVal) : PyExpr :=
  match pyConstInt v with
  | some n => simpleFeistelObfuscate decoderName n
  | none => .const v

/-- Embeds `NumberObscurerInjector.visit_Constant` with the
randomized-key Feistel strategy: the same `isinstance(node.value, int)`
test accepts booleans, whose arithmetic value `1` or `0` is encoded with
the instance's sampled multiplier, salt and round count. -/
def visitConstantRandFeistel (decoderName : String) (mul salt : Nat)
    (rounds : Nat) (v : PyVal) : PyExpr :=
  match pyConstInt v with
  | some n => randFeistelObfuscate decoderName mul salt rounds n
  | none => .const v

/-- Embeds `visit_Constant` with `XorStringNumberStrategy`: the accepted
constant object itself (a boolean included) is handed to `obfuscate`,
which applies `str()` to it. -/
def visitConstantXor (decoderName : String) (key : PyStr) (v : PyVal) : PyExpr :=
  match pyConstInt v with
  | some _ => xorObfuscate decoderName key v
  | none => .const v

/-- C2: for each scheme, evaluating the synthesized decoder on the
payload produced by `obfuscate(v)` yields exactly `v`: the fixed-key
Feistel and the randomized-key Feistel on the whole 32-bit domain (any
sampled multiplier, salt and round count), and the XOR-string scheme for
every integer, with its per-literal key drawn at the digit-string
length. -/
theorem number_schemes_decode_encode (dn : String) (v : Int)
    (hv : 0 ≤ v ∧ v < 4294967296) (mul salt rounds : Nat)
    (w : Int) (key : PyStr) (hkey : key.length = (intStr w).length) :
    (simpleFeistelObfuscate dn v =
        PyExpr.call (PyExpr.name dn PyCtx.load)
          [PyExpr.const (PyVal.vInt (simpleFeistelEncodeNat v.toNat))] ∧
      (simpleFeistelDecodeNat (simpleFeistelEncodeNat v.toNat) : Int) = v) ∧
    (randFeistelObfuscate dn mul salt rounds v =
        PyExpr.call (PyExpr.name dn PyCtx.load)
          [PyExpr.const (PyVal.vInt (randFeistelEncodeNat mul salt rounds v.toNat))] ∧
      (randFeistelDecodeNat mul salt rounds
        (randFeistelEncodeNat mul salt rounds v.toNat) : Int) = v) ∧
    (xorObfuscate dn key (PyVal.vInt w) =
        PyExpr.call (PyExpr.name dn PyCtx.load)
          [PyExpr.const (PyVal.vStr (xorEncodeStr key (intStr w)))] ∧
      xorDecodeStr (xorEncodeStr key (intStr w)) = some w) := by
  have htn : v.toNat < 4294967296 := by omega
  refine ⟨⟨?_, ?_⟩, ⟨?_, ?_⟩, rfl, ?_⟩
  · rw [simpleFeistelObfuscate, if_pos hv]
  · rw [simpleFeistel_roundtrip htn]
    omega
  · rw [randFeistelObfuscate, if_pos hv]
  · rw [randFeistel_roundtrip mul salt rounds htn]
    omega
  · rw [xorDecode_encode hkey, parseIntStr_intStr]

/-- Witness for C2 at the boundary values 0 and `2^32 - 1` of the
Feistel domain and at the negative literal `-42` for the XOR scheme. -/
theorem number_schemes_decode_encode_witness :
    ((simpleFeistelObfuscate "d0" 0 =
        PyExpr.call (PyExpr.name "d0" PyCtx.load)
          [PyExpr.const (PyVal.vInt (simpleFeistelEncodeNat (0 : Int).toNat))] ∧
      (simpleFeistelDecodeNat (simpleFeistelEncodeNat (0 : Int).toNat) : Int) = 0) ∧
    (randFeistelObfuscate "d0" 40541 999 3 0 =
        PyExpr.call (PyExpr.name "d0" PyCtx.load)
          [PyExpr.const (PyVal.vInt (randFeistelEncodeNat 40541 999 3 (0 : Int).toNat))] ∧
      (randFeistelDecodeNat 40541 999 3
        (randFeistelEncodeNat 40541 999 3 (0 : Int).toNat) : Int) = 0) ∧
    (xorObfuscate "d0" [1, 2, 3] (PyVal.vInt (-42)) =
        PyExpr.call (PyExpr.name "d0" PyCtx.load)
          [PyExpr.const (PyVal.vStr (xorEncodeStr [1, 2, 3] (intStr (-42))))] ∧
      xorDecodeStr (xorEncodeStr [1, 2, 3] (intStr (-42))) = some (-42))) ∧
    ((simpleFeistelObfuscate "d0" 4294967295 =
        PyExpr.call (PyExpr.name "d0" PyCtx.load)
          [PyExpr.const (PyVal.vInt (simpleFeistelEncodeNat (4294967295 : Int).toNat))] ∧
      (simpleFeistelDecodeNat (simpleFeistelEncodeNat (4294967295 : Int).toNat) : Int) =
        4294967295) ∧
    (randFeistelObfuscate "d0" 40541 999 3 4294967295 =
        PyExpr.call (PyExpr.name "d0" PyCtx.load)
          [PyExpr.const (PyVal.vInt (randFeistelEncodeNat 40541 999 3
            (4294967295 : Int).toNat))] ∧
      (randFeistelDecodeNat 40541 999 3
        (randFeistelEncodeNat 40541 999 3 (4294967295 : Int).toNat) : Int) = 4294967295) ∧
    (xorObfuscate "d0" [9, 9] (PyVal.vInt 17) =
        PyExpr.call (PyExpr.name "d0" PyCtx.load)
          [PyExpr.const (PyVal.vStr (xorEncodeStr [9, 9] (intStr 17)))] ∧
      xorDecodeStr (xorEncodeStr [9, 9] (intStr 17)) = some 17)) :=
  ⟨number_schemes_decode_encode "d0" 0 (by norm_num) 40541 999 3 (-42) [1, 2, 3]
      (by simp [intStr, natDigits]),
    number_schemes_decode_encode "d0" 4294967295 (by norm_num) 40541 999 3 17 [9, 9]
      (by simp [intStr, natDigits])⟩

/-- C4 counterexample: `XorStringNumberStrategy.obfuscate` has no range
gate, so the out-of-range literal `-1` is replaced by a decoder-call
expression rather than returned as the plain literal. -/
theorem xor_scheme_encodes_out_of_range :
    xorObfuscate "decode_num0" [7, 7] (PyVal.vInt (-1)) ≠
      PyExpr.const (PyVal.vInt (-1)) := by
  simp [xorObfuscate]

/-- C4 amended: for every integer outside `[0, 2^32)`, the fixed-key and
randomized-key Feistel schemes return the plain literal unchanged as a
non-fatal pass-through; the XOR-string scheme, which has no range check,
encodes such values anyway (its decoder still recovers them). -/
theorem feistel_out_of_range_passthrough (dn : String) (mul salt rounds : Nat)
    (v : Int) (hv : v < 0 ∨ 4294967296 ≤ v) :
    simpleFeistelObfuscate dn v = PyExpr.const (PyVal.vInt v) ∧
    randFeistelObfuscate dn mul salt rounds v = PyExpr.const (PyVal.vInt v) := by
  constructor
  · rw [simpleFeistelObfuscate, if_neg (by omega)]
  · rw [randFeistelObfuscate, if_neg (by omega)]

/-- Witness for the amended C4 at `v = -1` and `v = 2^32`. -/
theorem feistel_out_of_range_passthrough_witness :
    (simpleFeistelObfuscate "d0" (-1) = PyExpr.const (PyVal.vInt (-1)) ∧
      randFeistelObfuscate "d0" 40541 999 3 (-1) = PyExpr.const (PyVal.vInt (-1))) ∧
    (simpleFeistelObfuscate "d0" 4294967296 = PyExpr.const (PyVal.vInt 4294967296) ∧
      randFeistelObfuscate "d0" 40541 999 3 4294967296 =
        PyExpr.const (PyVal.vInt 4294967296)) :=
  ⟨feistel_out_of_range_passthrough "d0" 40541 999 3 (-1) (Or.inl (by norm_num)),
    feistel_out_of_range_passthrough "d0" 40541 999 3 4294967296 (Or.inr (by norm_num))⟩

/-- C10 counterexample: under the (non-identity) XOR-string scheme the
boolean constant `True` passes the integer-literal test and is replaced
by a decoder call, but the payload encodes `str(True) = "True"` and the
synthesized decoder's `int()` parse raises `ValueError` instead of
evaluating to `1`. -/
theorem bool_xor_decoder_value_error :
    visitConstantXor "decode_num0" [0, 0, 0, 0] (PyVal.vBool true) =
      PyExpr.call (PyExpr.name "decode_num0" PyCtx.load)
        [PyExpr.const (PyVal.vStr
          (xorEncodeStr [0, 0, 0, 0] (pyValStr (PyVal.vBool true))))] ∧
    xorDecodeStr (xorEncodeStr [0, 0, 0, 0] (pyValStr (PyVal.vBool true))) = none := by
  exact ⟨rfl, by decide⟩

/-- C10 amended: the integer-literal test of `visit_Constant` accepts
boolean constants (booleans are integers in Python), and under the
Feistel schemes the boolean is replaced by a decoder-call expression
whose payload decodes to the integer `1` or `0` — equal in value to the
original but no longer a boolean literal.  Under the XOR-string scheme
the boolean is likewise not exempt, but its payload stringifies the
boolean object and the synthesized decoder fails to parse it back. -/
theorem bool_literal_feistel_obfuscation (dn : String) (mul salt : Nat)
    (rounds : Nat) (b : Bool) :
    (pyConstInt (PyVal.vBool b)).isSome = true ∧
    visitConstantSimpleFeistel dn (PyVal.vBool b) =
      PyExpr.call (PyExpr.name dn PyCtx.load)
        [PyExpr.const (PyVal.vInt (simpleFeistelEncodeNat (if b then 1 else 0)))] ∧
    simpleFeistelDecodeNat (simpleFeistelEncodeNat (if b then 1 else 0)) =
      (if b then 1 else 0) ∧
    visitConstantRandFeistel dn mul salt rounds (PyVal.vBool b) =
      PyExpr.call (PyExpr.name dn PyCtx.load)
        [PyExpr.const (PyVal.vInt (randFeistelEncodeNat mul salt rounds
          (if b then 1 else 0)))] ∧
    randFeistelDecodeNat mul salt rounds
      (randFeistelEncodeNat mul salt rounds (if b then 1 else 0)) =
      (if b then 1 else 0) ∧
    PyVal.vInt (if b then 1 else 0) ≠ PyVal.vBool b := by
  cases b
  · exact ⟨rfl, rfl, simpleFeistel_roundtrip (by norm_num), rfl,
      randFeistel_roundtrip mul salt rounds (by norm_num), by decide⟩
  · exact ⟨rfl, rfl, simpleFeistel_roundtrip (by norm_num), rfl,
      randFeistel_roundtrip mul salt rounds (by norm_num), by decide⟩

/-! ## Injectors/inject_junk.py and junk_strategies.py

A small statement language and evaluator for the integer fragment the
junk strategies emit, sufficient to execute a program before and after
injection.  Environments map names to integer values; Python
`ZeroDivisionError` is modeled as `none`. -/

/-- Statements of the embedded fragment. -/
inductive PyStmt where
  | assign : String → PyExpr → PyStmt
  | passStmt : PyStmt

/-- Variable lookup (`NameError` modeled as `none`). -/
def envGet (env : List (String × Int)) (x : String) : Option Int :=
  match env.find? (fun p => p.1 == x) with
  | some p => some p.2
  | none => none

/-- Expression evaluation over the integer fragment.  Python `//` is
floor division (`Int.fdiv`) and raises on a zero divisor. -/
def evalExpr (env : List (String × Int)) : PyExpr → Option Int
  | .const (.vInt n) => some n
  | .const (.vBool b) => some (if b then 1 else 0)
  | .const _ => none
  | .name x _ => envGet env x
  | .unaryMinus e => (evalExpr env e).map (fun n => -n)
  | .binop l op r =>
    match evalExpr env l, evalExpr env r with
    | some a, some b =>
      match op with
      | .add => some (a + b)
      | .sub => some (a - b)
      | .mult => some (a * b)
      | .floordiv => if b = 0 then none else some (Int.fdiv a b)
    | _, _ => none
  | .call _ _ => none

/-- Statement execution: an assignment binds the evaluated value. -/
def execStmt (env : List (String × Int)) : PyStmt → Option (List (String × Int))
  | .assign x e => (evalExpr env e).map (fun v => (x, v) :: env)
  | .passStmt => some env

/-- Program execution; `none` is an uncaught runtime exception. -/
def execProg : List (String × Int) → List PyStmt → Option (List (String × Int))
  | env, [] => some env
  | env, s :: rest =>
    match execStmt env s with
    | some env2 => execProg env2 rest
    | none => none

/-- The optional negation/doubling wrapper of
`ArithmeticStrategy._wrap`. -/
inductive WrapChoice where
  | wnone
  | wneg
  | wdouble

/-- Embeds `ArithmeticStrategy._wrap` for one random choice. -/
def arithWrap : WrapChoice → PyExpr → PyExpr
  | .wnone, e => e
  | .wneg, e => .unaryMinus e
  | .wdouble, e => .binop e .mult (.const (.vInt 2))

/-- Embeds `ArithmeticStrategy.get_junk` for one draw of its random
choices: sampled junk variables `v1 ≠ v2`, operators `op1, op2` from
`[Add, Sub, Mult, FloorDiv]`, wrap choices, and a constant `c` drawn
from `[1, 5]`: emits `v1 = (wrap(v1) op1 wrap(v2)) op2 c`. -/
def arithJunk (v1 v2 : String) (op1 op2 : PyBinOp) (w1 w2 : WrapChoice)
    (c : Int) : List PyStmt :=
  [.assign v1 (.binop
    (.binop (arithWrap w1 (.name v1 .load)) op1 (arithWrap w2 (.name v2 .load)))
    op2 (.const (.vInt c)))]

/-- The junk-variable declarations `JunkInjector.visit_Module` prepends:
each scratch variable is bound to the neutral value `1`. -/
def junkDecls (vars : List String) : List PyStmt :=
  vars.map (fun v => .assign v (.const (.vInt 1)))

/-- Embeds `JunkInjector._inject_in_body` for one draw of its coins: for
each original statement, the junk blocks whose per-strategy coins fired
are inserted immediately before and after it, preserving statement
order. -/
def injectInBody (picks : List (List PyStmt × List PyStmt)) :
    List PyStmt → List PyStmt
  | [] => []
  | s :: rest =>
    match picks with
    | [] => s :: injectInBody [] rest
    | (bef, aft) :: ps => bef ++ (s :: (aft ++ injectInBody ps rest))

/-- Embeds `JunkInjector.visit_Module`: inject junk around the module
body, then declare the scratch pool at the top. -/
def junkVisitModule (vars : List String) (picks : List (List PyStmt × List PyStmt))
    (body : List PyStmt) : List PyStmt :=
  junkDecls vars ++ injectInBody picks body

/-- C3 (failing input): injecting two `ArithmeticStrategy` junk blocks
around the harmless program `x = 5` — the first drawing
`junk0 = (junk0 - junk1) * 1` (which sets the scratch variable `junk0`,
initialized to `1`, to `0`), the second drawing
`junk1 = (junk1 // junk0) + 1` — makes the transformed program raise
`ZeroDivisionError` while the original runs to completion, so the
injected code is not semantically inert. -/
theorem junk_injection_not_inert :
    execProg [] [PyStmt.assign "x" (PyExpr.const (PyVal.vInt 5))] =
      some [("x", 5)] ∧
    execProg [] (junkVisitModule ["junk0", "junk1", "junk2"]
      [(arithJunk "junk0" "junk1" PyBinOp.sub PyBinOp.mult
          WrapChoice.wnone WrapChoice.wnone 1,
        arithJunk "junk1" "junk0" PyBinOp.floordiv PyBinOp.add
          WrapChoice.wnone WrapChoice.wnone 1)]
      [PyStmt.assign "x" (PyExpr.const (PyVal.vInt 5))]) = none := by
  exact ⟨rfl, rfl⟩
